import Mathlib

/-!
Verification of the CoNLL-2003 NER preprocessing pipeline.

The pipeline (two notebook variants of `CoNLL.ipynb`) reads a
whitespace-separated token file with `pd.read_csv(..., names=[word, POS,
chunk, origin_entity], sep=" ", skip_blank_lines=False)`, strips the
positional part of entity tags with `str.rsplit("-", 1).str[-1]`, numbers
sentences with `isnull().all(axis=1).cumsum()`, drops the null rows with
`dropna()`, encodes tags and words with `sklearn.LabelEncoder`, groups by
sentence, and pads every sentence to a fixed length with keras
`pad_sequences` (pre-padding, pre-truncating).

This file embeds each of those steps as an executable Lean definition and
proves the specified properties about them.
-/

namespace CoNLL

/-- A parsed dataframe row: the four named columns of `read_csv`.  A field
is `none` when the corresponding cell is NaN (missing in the input line). -/
structure Row where
  word : Option String
  pos : Option String
  chunk : Option String
  originEntity : Option String
  deriving DecidableEq, Repr

/-- The row that a blank input line produces (`isnull().all(axis=1)` is
true on it): all four cells NaN. -/
def Row.isBlank (r : Row) : Bool :=
  r.word.isNone && r.pos.isNone && r.chunk.isNone && r.originEntity.isNone

/-- A row with no NaN cell: exactly the rows `dropna()` keeps. -/
def Row.isComplete (r : Row) : Bool :=
  r.word.isSome && r.pos.isSome && r.chunk.isSome && r.originEntity.isSome

/-- Parse failure of `pd.read_csv`: the C tokenizer raises
`ParserError: Expected 4 fields, saw n` when a line holds more fields than
the four declared column names. -/
inductive ParseError where
  | tooManyFields
  deriving DecidableEq, Repr

/-- Build the row of one input line, already split into its
whitespace-separated fields (a blank line is `[]`).  Fields beyond the
line's length are NaN: pandas fills missing trailing columns with NaN. -/
def toRow (fields : List String) : Row :=
  ⟨fields[0]?, fields[1]?, fields[2]?, fields[3]?⟩

/-- Parse with the semantics of `pd.read_csv(..., names=["word","POS",
"chunk","origin_entity"], header=None, sep=" ", skip_blank_lines=False)`,
over the already field-split lines of the file.  A line with more than four fields makes
the tokenizer raise; a line with at most four fields becomes a row, the
missing cells NaN; a blank line becomes an all-NaN row. -/
def readCsv (lines : List (List String)) : Except ParseError (List Row) :=
  if lines.all (fun l => l.length ≤ 4) then .ok (lines.map toRow)
  else .error .tooManyFields

/-! ### Entity-tag normalization: `origin_entity.str.rsplit("-", 1).str[-1]` -/

/-- The characters after the last `'-'` of the string (the whole string
when it has no `'-'`). -/
def afterLastDash (s : List Char) : List Char :=
  (s.reverse.takeWhile (fun c => c ≠ '-')).reverse

/-- The characters before the last `'-'` of the string. -/
def beforeLastDash (s : List Char) : List Char :=
  ((s.reverse.dropWhile (fun c => c ≠ '-')).drop 1).reverse

/-- Python `s.rsplit("-", 1)`: split at the last `'-'` at most once. -/
def rsplitOneDash (s : String) : List String :=
  if s.data.contains '-' then [⟨beforeLastDash s.data⟩, ⟨afterLastDash s.data⟩]
  else [s]

/-- The normalized entity tag, `str.rsplit("-", 1).str[-1]`: the last
piece of the one-step right split. -/
def normalizeTag (s : String) : String :=
  (rsplitOneDash s).getLastD ""

theorem afterLastDash_no_dash (s : List Char) : ('-' ∈ afterLastDash s) = False := by
  simp only [afterLastDash, eq_iff_iff, iff_false, List.mem_reverse]
  intro h
  have := List.mem_takeWhile_imp h
  simp at this

theorem normalizeTag_eq_afterLastDash (s : String) :
    normalizeTag s = ⟨afterLastDash s.data⟩ := by
  unfold normalizeTag rsplitOneDash
  by_cases h : s.data.contains '-'
  · rw [if_pos h]
    simp [List.getLastD]
  · rw [if_neg h]
    have : afterLastDash s.data = s.data := by
      unfold afterLastDash
      rw [List.takeWhile_eq_self_iff.mpr, List.reverse_reverse]
      intro x hx
      simp only [ne_eq, decide_eq_true_eq]
      intro hx'
      subst hx'
      exact absurd (List.mem_reverse.mp hx) (by simpa using h)
    rw [this]
    simp [List.getLastD]

theorem afterLastDash_idem (s : List Char) :
    afterLastDash (afterLastDash s) = afterLastDash s := by
  have hnd : '-' ∉ afterLastDash s := by
    intro h
    exact (afterLastDash_no_dash s) ▸ h
  unfold afterLastDash
  rw [List.takeWhile_eq_self_iff.mpr, List.reverse_reverse]
  intro x hx
  simp only [ne_eq, decide_eq_true_eq]
  intro hx'
  subst hx'
  exact hnd (by simpa [afterLastDash] using hx)

/-- C5. Entity-tag normalization takes the substring after the last
hyphen, maps the hyphen-free tag `"O"` to itself, and is idempotent on
every tag string. -/
theorem normalizeTag_spec :
    (∀ s : String, normalizeTag s = ⟨afterLastDash s.data⟩)
    ∧ normalizeTag "O" = "O"
    ∧ (∀ s : String, normalizeTag (normalizeTag s) = normalizeTag s) := by
  refine ⟨normalizeTag_eq_afterLastDash, by decide, fun s => ?_⟩
  rw [normalizeTag_eq_afterLastDash s, normalizeTag_eq_afterLastDash ⟨afterLastDash s.data⟩]
  exact congrArg String.mk (afterLastDash_idem s.data)

/-! ### Sequence padding: keras `pad_sequences`

`pad_sequences(seqs, maxlen, value)` with the default `padding='pre'` and
`truncating='pre'`: a sequence longer than `maxlen` loses its leading
elements (the last `maxlen` survive, in order); a shorter one is extended
at the front with `value`.  The default fill `value` is `0.0`. -/

/-- The default `value` argument of keras `pad_sequences`. -/
def padSequencesDefaultValue : Int := 0

/-- Pad or truncate one integer sequence to length `maxlen`. -/
def padSeq (maxlen : Nat) (value : Int) (xs : List Int) : List Int :=
  if maxlen ≤ xs.length then xs.drop (xs.length - maxlen)
  else List.replicate (maxlen - xs.length) value ++ xs

/-- Pad or truncate one sequence of one-hot rows (`dim` classes) to length
`maxlen`; short sequences gain all-zero rows at the front (the scalar
`value=0` broadcast over a row). -/
def padSeqRows (maxlen dim : Nat) (xs : List (List Int)) : List (List Int) :=
  if maxlen ≤ xs.length then xs.drop (xs.length - maxlen)
  else List.replicate (maxlen - xs.length) (List.replicate dim 0) ++ xs

theorem padSeq_length (maxlen : Nat) (value : Int) (xs : List Int) :
    (padSeq maxlen value xs).length = maxlen := by
  unfold padSeq
  by_cases h : maxlen ≤ xs.length
  · rw [if_pos h]
    simp [Nat.sub_sub_self h]
  · rw [if_neg h]
    simp
    omega

/-- C3. Padding is length-exact: the output always has length exactly
`maxlen`; a long sentence keeps its last `maxlen` ids in order (truncation
drops from the front); a short one keeps its ids at the end in order, the
leading positions all holding the fill value. -/
theorem padSeq_spec (maxlen : Nat) (value : Int) (xs : List Int) :
    (padSeq maxlen value xs).length = maxlen
    ∧ (maxlen ≤ xs.length → padSeq maxlen value xs = xs.drop (xs.length - maxlen))
    ∧ (xs.length ≤ maxlen →
        (padSeq maxlen value xs).drop (maxlen - xs.length) = xs
        ∧ ∀ v ∈ (padSeq maxlen value xs).take (maxlen - xs.length), v = value) := by
  refine ⟨padSeq_length maxlen value xs, fun h => by rw [padSeq, if_pos h], fun h => ?_⟩
  by_cases h' : maxlen ≤ xs.length
  · have hx : xs.length = maxlen := Nat.le_antisymm h h'
    constructor
    · rw [padSeq, if_pos h']
      simp [hx]
    · intro v hv
      rw [padSeq, if_pos h'] at hv
      simp [hx] at hv
  · constructor
    · rw [padSeq, if_neg h']
      rw [List.drop_append_of_le_length (by simp)]
      simp
    · intro v hv
      rw [padSeq, if_neg h'] at hv
      rw [List.take_append_of_le_length (by simp)] at hv
      simp at hv
      exact hv.2

/-- Witness for C3 at a concrete short and long input. -/
theorem padSeq_spec_witness :
    padSeq 3 (-9) [5, 6, 7, 8] = [6, 7, 8]
    ∧ (padSeq 3 (-9) [5]).drop 2 = [5]
    ∧ (padSeq 3 (-9) [5]).take 2 = [-9, -9] := by
  refine ⟨?_, ?_, ?_⟩
  · have := (padSeq_spec 3 (-9) [5, 6, 7, 8]).2.1 (by decide)
    simpa using this
  · have := ((padSeq_spec 3 (-9) [5]).2.2 (by decide)).1
    simpa using this
  · decide

/-! ### Label encoding: `sklearn.preprocessing.LabelEncoder`

`fit` stores `classes_`, the sorted distinct values of the fit column;
`transform` maps a value to its position in `classes_`, raising
`ValueError` on a value absent from `classes_`; `inverse_transform i`
returns `classes_[i]`. -/

/-- Fitting, `LabelEncoder.fit`: the sorted list of distinct values of the
column becomes `classes_`. -/
def fitClasses (xs : List String) : List String :=
  xs.dedup.insertionSort (· ≤ ·)

/-- The id `classes_` assigns to a value: its position in the sorted
distinct list. -/
def encode (cls : List String) (w : String) : Nat := cls.indexOf w

/-- Inverse lookup, `LabelEncoder.inverse_transform`, at one id. -/
def inverseTransform (cls : List String) (i : Nat) : Option String := cls[i]?

/-- Error of `LabelEncoder.transform`: it raises `ValueError: y contains
previously unseen labels` on a value outside `classes_`. -/
inductive EncodeError where
  | unknownLabel
  deriving DecidableEq, Repr

/-- Transform, `LabelEncoder.transform`, at one value. -/
def encodeTag (cls : List String) (t : String) : Except EncodeError Nat :=
  if t ∈ cls then .ok (cls.indexOf t) else .error .unknownLabel

/-- Transform, `LabelEncoder.transform`, over a column. -/
def leTransform (cls : List String) : List String → Except EncodeError (List Nat)
  | [] => .ok []
  | t :: ts => do
    let i ← encodeTag cls t
    let rest ← leTransform cls ts
    return i :: rest

/-- Python `enumerate(classes)` paired as `(word, idx)` entries, starting
at index `n`. -/
def enumPairs : Nat → List String → List (String × Nat)
  | _, [] => []
  | n, w :: ws => (w, n) :: enumPairs (n + 1) ws

/-- The dict `word_map = {word: idx for idx, word in enumerate(word_encoder.classes_)}`.
(`classes_` has no duplicate, so first-match lookup agrees with the
last-wins dict comprehension.) -/
def wordMap (cls : List String) : List (String × Nat) := enumPairs 0 cls

/-- Lookup `word_map.get(x, len(word_encoder.classes_))`: the fitted id when the
word is known, the out-of-vocabulary id `V = len(classes_)` otherwise. -/
def wordMapGet (cls : List String) (w : String) : Nat :=
  ((wordMap cls).lookup w).getD cls.length

theorem mem_fitClasses {w : String} {ws : List String} :
    w ∈ fitClasses ws ↔ w ∈ ws := by
  unfold fitClasses
  rw [(List.perm_insertionSort (· ≤ ·) ws.dedup).mem_iff, List.mem_dedup]

theorem lookup_enumPairs_of_not_mem {w : String} {cls : List String} (n : Nat)
    (h : w ∉ cls) : (enumPairs n cls).lookup w = none := by
  induction cls generalizing n with
  | nil => rfl
  | cons c cs ih =>
    have hne : w ≠ c := fun hc => h (hc ▸ List.mem_cons_self c cs)
    simp only [enumPairs, List.lookup]
    rw [show (w == c) = false from beq_eq_false_iff_ne.mpr hne]
    exact ih (n + 1) (fun hm => h (List.mem_cons_of_mem c hm))

theorem lookup_enumPairs_of_mem {w : String} {cls : List String} (n : Nat)
    (h : w ∈ cls) : (enumPairs n cls).lookup w = some (n + cls.indexOf w) := by
  induction cls generalizing n with
  | nil => cases h
  | cons c cs ih =>
    by_cases hc : w = c
    · subst hc
      simp [enumPairs, List.lookup, List.indexOf_cons_self]
    · simp only [enumPairs, List.lookup]
      rw [show (w == c) = false from beq_eq_false_iff_ne.mpr hc]
      have hm : w ∈ cs := by
        cases List.mem_cons.mp h with
        | inl h' => exact absurd h' hc
        | inr h' => exact h'
      rw [ih (n + 1) hm, List.indexOf_cons_ne _ (by simpa using (Ne.symm hc))]
      exact congrArg some (by omega)

/-- C6. Word encoding at transform time is total: a word present in
the fitted vocabulary maps to its fitted id, and a word absent from it
maps to the reserved out-of-vocabulary id `V` (the vocabulary size, one
past the largest fitted id); no error is possible. -/
theorem wordMapGet_spec (ws : List String) (w : String) :
    (w ∈ fitClasses ws ↔ w ∈ ws)
    ∧ (w ∈ ws → wordMapGet (fitClasses ws) w = encode (fitClasses ws) w)
    ∧ (w ∉ ws → wordMapGet (fitClasses ws) w = (fitClasses ws).length) := by
  refine ⟨mem_fitClasses, fun h => ?_, fun h => ?_⟩
  · unfold wordMapGet wordMap
    rw [lookup_enumPairs_of_mem 0 (mem_fitClasses.mpr h)]
    simp [encode]
  · unfold wordMapGet wordMap
    rw [lookup_enumPairs_of_not_mem 0 (fun hm => h (mem_fitClasses.mp hm))]
    rfl

/-- Witness for C6: `"Zyzzyx"` is out of vocabulary and gets id `V = 2`;
`"says"` is in vocabulary and gets its fitted id. -/
theorem wordMapGet_spec_witness :
    wordMapGet (fitClasses ["says", "China", "says"]) "Zyzzyx"
      = (fitClasses ["says", "China", "says"]).length
    ∧ wordMapGet (fitClasses ["says", "China", "says"]) "says"
      = encode (fitClasses ["says", "China", "says"]) "says" := by
  constructor
  · exact (wordMapGet_spec ["says", "China", "says"] "Zyzzyx").2.2 (by decide)
  · exact (wordMapGet_spec ["says", "China", "says"] "says").2.1 (by decide)

/-- C7. Encoding a split's gold tags with the fitted Tag Vocabulary
errors exactly when some tag of the split was never seen at fit time;
when every tag was seen, the transform succeeds and maps each tag to its
fitted id. -/
theorem leTransform_cons (cls : List String) (t : String) (ts : List String) :
    leTransform cls (t :: ts)
      = (encodeTag cls t).bind
          (fun i => (leTransform cls ts).map (fun rest => i :: rest)) := by
  cases h : encodeTag cls t <;> cases h2 : leTransform cls ts <;>
    simp [leTransform, Bind.bind, Except.bind, Functor.map, Except.map, Pure.pure,
      Except.pure, h, h2]

theorem leTransform_spec (trainTags ts : List String) :
    ((∃ t ∈ ts, t ∉ trainTags)
        ↔ leTransform (fitClasses trainTags) ts = .error .unknownLabel)
    ∧ ((∀ t ∈ ts, t ∈ trainTags)
        → leTransform (fitClasses trainTags) ts
            = .ok (ts.map (encode (fitClasses trainTags)))) := by
  induction ts with
  | nil =>
    refine ⟨⟨fun ⟨t, ht, _⟩ => absurd ht (List.not_mem_nil t), fun h => ?_⟩, fun _ => rfl⟩
    simp [leTransform] at h
  | cons t ts ih =>
    by_cases hm : t ∈ fitClasses trainTags
    · have henc : encodeTag (fitClasses trainTags) t
          = .ok ((fitClasses trainTags).indexOf t) := by
        simp [encodeTag, hm]
      constructor
      · constructor
        · rintro ⟨u, hu, hnotin⟩
          have hu' : u ∈ ts := by
            cases List.mem_cons.mp hu with
            | inl h' => exact absurd (mem_fitClasses.mp (h' ▸ hm)) hnotin
            | inr h' => exact h'
          rw [leTransform_cons, henc, ih.1.mp ⟨u, hu', hnotin⟩]
          rfl
        · intro herr
          rw [leTransform_cons, henc] at herr
          cases h2 : leTransform (fitClasses trainTags) ts with
          | error e =>
            cases e
            obtain ⟨u, hu, hnotin⟩ := ih.1.mpr h2
            exact ⟨u, List.mem_cons_of_mem t hu, hnotin⟩
          | ok rest =>
            rw [h2] at herr
            exact absurd herr (by simp [Except.bind, Except.map])
      · intro hall
        rw [leTransform_cons, henc,
          ih.2 (fun u hu => hall u (List.mem_cons_of_mem t hu))]
        rfl
    · have hnott : t ∉ trainTags := fun h => hm (mem_fitClasses.mpr h)
      have henc : encodeTag (fitClasses trainTags) t = .error .unknownLabel := by
        simp [encodeTag, hm]
      constructor
      · constructor
        · intro _
          rw [leTransform_cons, henc]
          rfl
        · intro _
          exact ⟨t, List.mem_cons_self t ts, hnott⟩
      · intro hall
        exact absurd (hall t (List.mem_cons_self t ts)) hnott

/-- Witness for C7: the tag `"PER"` unseen at fit time errors; a split
whose tags were all seen encodes to the fitted ids. -/
theorem leTransform_spec_witness :
    leTransform (fitClasses ["O", "ORG", "O"]) ["ORG", "PER"]
      = .error .unknownLabel
    ∧ leTransform (fitClasses ["O", "ORG", "O"]) ["ORG", "O"]
      = .ok (["ORG", "O"].map (encode (fitClasses ["O", "ORG", "O"]))) := by
  constructor
  · exact (leTransform_spec ["O", "ORG", "O"] ["ORG", "PER"]).1.mp
      ⟨"PER", by decide, by decide⟩
  · exact (leTransform_spec ["O", "ORG", "O"] ["ORG", "O"]).2 (by decide)

/-- C8. The fitted Vocabulary is a bijection between the distinct fit
words and ids `0..V-1` in sorted order: `classes_` is duplicate-free and
sorted, has one entry per distinct fit word, contains exactly the fit
words, and encoding a fit word followed by inverse lookup returns it. -/
theorem fitClasses_roundtrip (ws : List String) (w : String) (h : w ∈ ws) :
    (fitClasses ws).Nodup
    ∧ List.Sorted (· ≤ ·) (fitClasses ws)
    ∧ (fitClasses ws).length = ws.dedup.length
    ∧ (w ∈ fitClasses ws)
    ∧ inverseTransform (fitClasses ws) (encode (fitClasses ws) w) = some w := by
  have hperm := List.perm_insertionSort (· ≤ ·) ws.dedup
  refine ⟨hperm.nodup_iff.mpr ws.nodup_dedup, List.sorted_insertionSort _ _,
    hperm.length_eq, mem_fitClasses.mpr h, ?_⟩
  unfold inverseTransform encode
  exact List.getElem?_indexOf (mem_fitClasses.mpr h)

/-- Witness for C8 at a concrete fit corpus. -/
theorem fitClasses_roundtrip_witness :
    inverseTransform (fitClasses ["says", "China", "says"])
      (encode (fitClasses ["says", "China", "says"]) "China") = some "China" :=
  (fitClasses_roundtrip ["says", "China", "says"] "China" (by decide)).2.2.2.2

/-! ### Sentence numbering and grouping

`train["sentence"] = train.isnull().all(axis=1).cumsum()` pairs each row
with the running count of all-NaN rows seen so far (the row itself
included), `train.dropna()` then removes every row that has any NaN cell,
and `train.groupby('sentence')` groups the remaining rows by that id. -/

/-- The cumulative-sum sentence numbering, with the running counter made
explicit (the notebook starts it at 0). -/
def addSentenceIds : Nat → List Row → List (Row × Nat)
  | _, [] => []
  | n, r :: rs =>
    let m := if r.isBlank then n + 1 else n
    (r, m) :: addSentenceIds m rs

/-- Drop, as `dropna()` does, every row that has a NaN cell. -/
def dropnaRows (prs : List (Row × Nat)) : List (Row × Nat) :=
  prs.filter (fun p => p.1.isComplete)

/-- The number of all-NaN (blank-line) rows of a list. -/
def countBlanks (rows : List Row) : Nat :=
  rows.countP (fun r => r.isBlank)

/-- The keys of `groupby('sentence')`: the distinct sentence ids of the
remaining rows, in ascending order (pandas sorts group keys). -/
def groupKeys (prs : List (Row × Nat)) : List Nat :=
  ((prs.map (fun p => p.2)).dedup).insertionSort (· ≤ ·)

/-- Grouping `groupby('sentence')[col].apply(list)`: one in-order row list per
sentence id, in key order. -/
def groupRows (prs : List (Row × Nat)) : List (List Row) :=
  (groupKeys prs).map (fun k => (prs.filter (fun p => p.2 = k)).map (fun p => p.1))

/-- The `word` column of the remaining rows. -/
def wordsOf (prs : List (Row × Nat)) : List String :=
  prs.map (fun p => p.1.word.getD "")

/-- The ids the cumulative sum gives the non-blank rows, counter started
at `n` (blank rows are dropped before grouping, so only these ids reach
`groupby`). -/
def tokenIds : Nat → List Row → List Nat
  | _, [] => []
  | n, r :: rs => if r.isBlank then tokenIds (n + 1) rs else n :: tokenIds n rs

/-- A stream is well formed when a blank line appears only as a sentence
separator: never first, never right after another blank line.  The flag
records whether a blank line may come next. -/
def wfB : Bool → List Row → Bool
  | _, [] => true
  | b, r :: rs => if r.isBlank then b && wfB false rs else wfB true rs

/-- Whether the stream ends with token lines not followed by a final
blank line. -/
def endsWithToken : List Row → Bool
  | [] => false
  | [r] => !r.isBlank
  | _ :: r :: rs => endsWithToken (r :: rs)

/-- Whether the stream begins with a blank line. -/
def startsBlank : List Row → Bool
  | [] => false
  | r :: _ => r.isBlank

theorem Row.not_isBlank_of_isComplete {r : Row} (h : r.isComplete = true) :
    r.isBlank = false := by
  rcases r with ⟨w, p, c, o⟩
  cases w <;> simp_all [Row.isComplete, Row.isBlank]

theorem Row.not_isComplete_of_isBlank {r : Row} (h : r.isBlank = true) :
    r.isComplete = false := by
  rcases r with ⟨w, p, c, o⟩
  cases w <;> simp_all [Row.isComplete, Row.isBlank]

theorem addSentenceIds_map_fst (n : Nat) (rows : List Row) :
    (addSentenceIds n rows).map (fun p => p.1) = rows := by
  induction rows generalizing n with
  | nil => rfl
  | cons r rs ih => simp [addSentenceIds, ih]

/-- When every row is a blank separator or a complete token record,
`dropna` keeps exactly the non-blank rows. -/
theorem dropnaRows_eq_filter (n : Nat) (rows : List Row)
    (hcomp : ∀ r ∈ rows, r.isBlank = true ∨ r.isComplete = true) :
    dropnaRows (addSentenceIds n rows)
      = (addSentenceIds n rows).filter (fun p => !p.1.isBlank) := by
  apply List.filter_congr
  intro p hp
  have hmem : p.1 ∈ rows := by
    rw [← addSentenceIds_map_fst n rows]
    exact List.mem_map_of_mem _ hp
  rcases hcomp p.1 hmem with h | h
  · rw [Row.not_isComplete_of_isBlank h, h]
    rfl
  · rw [h, Row.not_isBlank_of_isComplete h]
    rfl

theorem map_snd_filter_eq_tokenIds (n : Nat) (rows : List Row) :
    ((addSentenceIds n rows).filter (fun p => !p.1.isBlank)).map (fun p => p.2)
      = tokenIds n rows := by
  induction rows generalizing n with
  | nil => rfl
  | cons r rs ih =>
    by_cases h : r.isBlank
    · simp [addSentenceIds, tokenIds, h, ih]
    · simp [addSentenceIds, tokenIds, h, ih]

theorem tokenIds_ge (rows : List Row) (n : Nat) :
    ∀ m ∈ tokenIds n rows, n ≤ m := by
  induction rows generalizing n with
  | nil => intro m hm; cases hm
  | cons r rs ih =>
    intro m hm
    by_cases h : r.isBlank
    · rw [tokenIds, if_pos h] at hm
      exact Nat.le_of_succ_le (ih (n + 1) m hm)
    · rw [tokenIds, if_neg h] at hm
      cases List.mem_cons.mp hm with
      | inl h' => exact h' ▸ Nat.le_refl n
      | inr h' => exact ih n m h'

/-- Distinct-sentence count of a well-formed stream: the blanks, plus one
when a trailing token block follows the last blank (stated with the
leading-blank correction on the left so it also covers suffix streams in
the induction). -/
theorem tokenIds_card (rows : List Row) (b : Bool) (n : Nat)
    (hwf : wfB b rows = true) :
    (tokenIds n rows).toFinset.card + (if startsBlank rows then 1 else 0)
      = countBlanks rows + (if endsWithToken rows then 1 else 0) := by
  induction rows generalizing b n with
  | nil => rfl
  | cons r rs ih =>
    by_cases h : r.isBlank
    · rw [wfB, if_pos h, Bool.and_eq_true] at hwf
      rw [tokenIds, if_pos h]
      have hsb : startsBlank (r :: rs) = true := h
      cases rs with
      | nil => simp [hsb, countBlanks, endsWithToken, h, List.countP_cons, tokenIds]
      | cons r' rs' =>
        have hsb' : startsBlank (r' :: rs') = false := by
          rcases hb' : r'.isBlank with _ | _
          · exact hb'
          · rw [wfB, if_pos hb'] at hwf
            simp at hwf
        have := ih false (n + 1) hwf.2
        rw [hsb', if_neg (by simp)] at this
        rw [hsb, if_pos rfl]
        have hend : endsWithToken (r :: r' :: rs') = endsWithToken (r' :: rs') := rfl
        rw [hend]
        have hcb : countBlanks (r :: r' :: rs') = countBlanks (r' :: rs') + 1 := by
          simp [countBlanks, List.countP_cons, h]
        omega
    · rw [wfB, if_neg h] at hwf
      rw [tokenIds, if_neg h]
      have hsb : startsBlank (r :: rs) = false := by
        simpa [startsBlank] using h
      rw [hsb, if_neg (by simp)]
      have hcb : countBlanks (r :: rs) = countBlanks rs := by
        simp [countBlanks, List.countP_cons, h]
      cases rs with
      | nil => simp [countBlanks, endsWithToken, h, tokenIds]
      | cons r' rs' =>
        have hend : endsWithToken (r :: r' :: rs') = endsWithToken (r' :: rs') := rfl
        have ihx := ih true n hwf
        by_cases hb' : r'.isBlank
        · have hnot : n ∉ tokenIds n (r' :: rs') := by
            intro hm
            rw [tokenIds, if_pos hb'] at hm
            exact absurd (tokenIds_ge rs' (n + 1) n hm) (by omega)
          rw [List.toFinset_cons, Finset.card_insert_of_not_mem (by
            simpa [List.mem_toFinset] using hnot)]
          rw [show startsBlank (r' :: rs') = true from hb', if_pos rfl] at ihx
          rw [hcb, hend]
          omega
        · have hmem : n ∈ tokenIds n (r' :: rs') := by
            rw [tokenIds, if_neg hb']
            exact List.mem_cons_self n _
          rw [List.toFinset_cons, Finset.insert_eq_self.mpr (by
            simpa [List.mem_toFinset] using hmem)]
          rw [show startsBlank (r' :: rs') = false from by simpa [startsBlank] using hb',
            if_neg (by simp)] at ihx
          rw [hcb, hend]
          omega

/-- The id the cumulative sum pairs with the row at position `i` of a
stream, when that row is not blank: the counter's start plus the number
of blank rows strictly before position `i`. -/
theorem addSentenceIds_snd (rows : List Row) (n i : Nat) (r : Row)
    (hr : rows[i]? = some r) (hnb : r.isBlank = false) :
    ((addSentenceIds n rows)[i]?).map (fun p => p.2)
      = some (n + countBlanks (rows.take i)) := by
  induction rows generalizing n i with
  | nil => simp at hr
  | cons r0 rs ih =>
    cases i with
    | zero =>
      simp only [List.getElem?_cons_zero, Option.some_inj] at hr
      subst hr
      simp [addSentenceIds, hnb, countBlanks]
    | succ j =>
      simp only [List.getElem?_cons_succ] at hr
      have := ih (if r0.isBlank then n + 1 else n) j hr
      simp only [addSentenceIds, List.getElem?_cons_succ]
      rw [this]
      have : countBlanks ((r0 :: rs).take (j + 1))
          = (if r0.isBlank then 1 else 0) + countBlanks (rs.take j) := by
        simp only [List.take_succ_cons, countBlanks, List.countP_cons]
        by_cases hb : r0.isBlank
        · simp [hb]
          omega
        · simp [hb]
      rw [this]
      by_cases hb : r0.isBlank
      · simp [hb]
        omega
      · simp [hb]

/-- C4. On a well-formed stream (blank lines only as separators
between non-empty token blocks, every token line complete), the grouping
step emits one sentence per blank separator, plus one when trailing token
lines are not closed by a final blank line; and the cumulative-sum
counter gives every token row a sentence id equal to the number of blank
lines preceding it. -/
theorem sentence_grouping_spec (rows : List Row)
    (hwf : wfB false rows = true)
    (hcomp : ∀ r ∈ rows, r.isBlank = true ∨ r.isComplete = true) :
    (groupKeys (dropnaRows (addSentenceIds 0 rows))).length
      = countBlanks rows + (if endsWithToken rows then 1 else 0)
    ∧ ∀ i r, rows[i]? = some r → r.isBlank = false →
        ((addSentenceIds 0 rows)[i]?).map (fun p => p.2)
          = some (countBlanks (rows.take i)) := by
  constructor
  · have hlen : (groupKeys (dropnaRows (addSentenceIds 0 rows))).length
        = (tokenIds 0 rows).toFinset.card := by
      unfold groupKeys
      rw [(List.perm_insertionSort (· ≤ ·) _).length_eq,
        dropnaRows_eq_filter 0 rows hcomp, map_snd_filter_eq_tokenIds,
        ← List.card_toFinset]
    rw [hlen]
    have hsb : startsBlank rows = false := by
      cases rows with
      | nil => rfl
      | cons r rs =>
        rcases hb : r.isBlank with _ | _
        · exact hb
        · rw [wfB, if_pos hb] at hwf
          simp at hwf
    have := tokenIds_card rows false 0 hwf
    rw [hsb, if_neg (by simp)] at this
    omega
  · intro i r hr hnb
    simpa using addSentenceIds_snd rows 0 i r hr hnb

/-- Witness for C4 on the stream token, blank, token, token: two blank-free
token blocks around one separator. -/
theorem sentence_grouping_spec_witness :
    (groupKeys (dropnaRows (addSentenceIds 0
        [⟨some "China", some "NNP", some "B-NP", some "B-ORG"⟩,
         ⟨none, none, none, none⟩,
         ⟨some "says", some "VBZ", some "B-VP", some "O"⟩,
         ⟨some ".", some ".", some "O", some "O"⟩]))).length
      = countBlanks
          [⟨some "China", some "NNP", some "B-NP", some "B-ORG"⟩,
           ⟨none, none, none, none⟩,
           ⟨some "says", some "VBZ", some "B-VP", some "O"⟩,
           ⟨some ".", some ".", some "O", some "O"⟩]
        + (if endsWithToken
            [⟨some "China", some "NNP", some "B-NP", some "B-ORG"⟩,
             ⟨none, none, none, none⟩,
             ⟨some "says", some "VBZ", some "B-VP", some "O"⟩,
             ⟨some ".", some ".", some "O", some "O"⟩] then 1 else 0) :=
  (sentence_grouping_spec _ (by decide) (by decide)).1

/-! ### The assembled input pipeline -/

/-- Per-sentence encoded word sequences: group the surviving rows by
sentence id and encode each word with the vocabulary fitted on the same
rows' word column. -/
def sentenceSeqs (rows : List Row) : List (List Int) :=
  (groupRows (dropnaRows (addSentenceIds 0 rows))).map
    (fun g => g.map (fun r =>
      ((encode (fitClasses (wordsOf (dropnaRows (addSentenceIds 0 rows))))
        (r.word.getD "") : Int))))

/-- The padded input batch built from parsed rows. -/
def paddedBatch (maxlen : Nat) (value : Int) (rows : List Row) : List (List Int) :=
  (sentenceSeqs rows).map (padSeq maxlen value)

/-- End to end: `pad_sequences(x_train_sentence, maxlen=100, value=-1)`. -/
def xTrainSeq100 (lines : List (List String)) : Except ParseError (List (List Int)) :=
  (readCsv lines).map (paddedBatch 100 (-1))

/-- End to end: `pad_sequences(x_train_sentence, maxlen=60)`; the `value`
argument is left at its keras default. -/
def xTrainSeq60 (lines : List (List String)) : Except ParseError (List (List Int)) :=
  (readCsv lines).map (paddedBatch 60 padSequencesDefaultValue)

theorem countBlanks_take_succ (rows : List Row) (m : Nat) (r : Row)
    (h : rows[m]? = some r) :
    countBlanks (rows.take (m + 1))
      = countBlanks (rows.take m) + (if r.isBlank then 1 else 0) := by
  rw [countBlanks, List.take_succ, h, List.countP_append]
  cases hb : r.isBlank <;> simp [countBlanks, List.countP_cons, hb]

theorem countBlanks_take_mono (rows : List Row) {m n : Nat} (h : m ≤ n) :
    countBlanks (rows.take m) ≤ countBlanks (rows.take n) := by
  have : rows.take m = (rows.take n).take m := by
    rw [List.take_take m n rows, Nat.min_eq_left h]
  rw [countBlanks, countBlanks, this]
  exact (List.take_sublist m (rows.take n)).countP_le _

/-- The sentence id of any row surviving `dropna` is the blank count of
some prefix of the stream ending right before a non-blank row. -/
theorem mem_dropna_ids (rows : List Row) (k : Nat)
    (hk : k ∈ (dropnaRows (addSentenceIds 0 rows)).map (fun p => p.2)) :
    ∃ j r, rows[j]? = some r ∧ r.isBlank = false
      ∧ k = countBlanks (rows.take j) := by
  obtain ⟨p, hp, hk2⟩ := List.mem_map.mp hk
  have hpmem : p ∈ addSentenceIds 0 rows := (List.mem_filter.mp hp).1
  have hcomplete : p.1.isComplete = true := by
    simpa using (List.mem_filter.mp hp).2
  obtain ⟨⟨j, hj⟩, hg⟩ := List.mem_iff_get.mp hpmem
  have hj' : (addSentenceIds 0 rows)[j]? = some p := by
    rw [List.getElem?_eq_getElem hj]
    simpa [List.get_eq_getElem] using hg
  have hrow : rows[j]? = some p.1 := by
    conv_lhs => rw [← addSentenceIds_map_fst 0 rows]
    rw [List.getElem?_map _ _ j, hj']
    rfl
  have hnb : p.1.isBlank = false := Row.not_isBlank_of_isComplete hcomplete
  have := addSentenceIds_snd rows 0 j p.1 hrow hnb
  rw [hj'] at this
  refine ⟨j, p.1, hrow, hnb, ?_⟩
  subst hk2
  simpa using this

/-- C10. An empty sentence — two adjacent blank separator lines, or a
leading blank line — yields no group at all: its sentence id is carried
by no surviving row, and the padded batch has exactly one row per
distinct id of an actual token. -/
theorem empty_sentence_spec (rows : List Row) (i maxlen : Nat) (value : Int) :
    ((rows[i]?).map Row.isBlank = some true →
      (rows[i + 1]?).map Row.isBlank = some true →
      countBlanks (rows.take (i + 1))
        ∉ (dropnaRows (addSentenceIds 0 rows)).map (fun p => p.2))
    ∧ ((rows[0]?).map Row.isBlank = some true →
      (0 : Nat) ∉ (dropnaRows (addSentenceIds 0 rows)).map (fun p => p.2))
    ∧ (paddedBatch maxlen value rows).length
        = ((dropnaRows (addSentenceIds 0 rows)).map (fun p => p.2)).toFinset.card := by
  refine ⟨fun h1 h2 hmem => ?_, fun h0 hmem => ?_, ?_⟩
  · obtain ⟨bi, hbi, hbi'⟩ := Option.map_eq_some'.mp h1
    obtain ⟨bj, hbj, hbj'⟩ := Option.map_eq_some'.mp h2
    obtain ⟨j, r, hrow, hnb, hid⟩ := mem_dropna_ids rows _ hmem
    have hstep1 : countBlanks (rows.take (i + 1))
        = countBlanks (rows.take i) + 1 := by
      rw [countBlanks_take_succ rows i bi hbi, hbi', if_pos rfl]
    have hstep2 : countBlanks (rows.take (i + 2))
        = countBlanks (rows.take (i + 1)) + 1 := by
      rw [countBlanks_take_succ rows (i + 1) bj hbj, hbj', if_pos rfl]
    rcases Nat.lt_trichotomy j (i + 1) with hlt | heq | hgt
    · have : countBlanks (rows.take j) ≤ countBlanks (rows.take i) :=
        countBlanks_take_mono rows (Nat.lt_succ_iff.mp hlt)
      omega
    · subst heq
      rw [hrow] at hbj
      cases hbj
      rw [hbj'] at hnb
      cases hnb
    · have : countBlanks (rows.take (i + 2)) ≤ countBlanks (rows.take j) :=
        countBlanks_take_mono rows hgt
      omega
  · obtain ⟨b0, hb0, hb0'⟩ := Option.map_eq_some'.mp h0
    obtain ⟨j, r, hrow, hnb, hid⟩ := mem_dropna_ids rows _ hmem
    cases j with
    | zero =>
      rw [hrow] at hb0
      cases hb0
      rw [hb0'] at hnb
      cases hnb
    | succ j' =>
      have hstep : countBlanks (rows.take 1) = countBlanks (rows.take 0) + 1 := by
        rw [countBlanks_take_succ rows 0 b0 hb0, hb0', if_pos rfl]
      have : countBlanks (rows.take 1) ≤ countBlanks (rows.take (j' + 1)) :=
        countBlanks_take_mono rows (Nat.succ_le_succ (Nat.zero_le j'))
      have h0 : countBlanks (rows.take 0) = 0 := rfl
      omega
  · rw [paddedBatch, List.length_map, sentenceSeqs, List.length_map, groupRows,
      List.length_map, groupKeys, (List.perm_insertionSort (· ≤ ·) _).length_eq,
      ← List.card_toFinset]

/-- A four-line example stream holding two adjacent blank separator
lines, hence an empty sentence between them. -/
def exDoubleBlank : List Row :=
  [⟨some "China", some "NNP", some "B-NP", some "B-ORG"⟩,
   ⟨none, none, none, none⟩,
   ⟨none, none, none, none⟩,
   ⟨some "says", some "VBZ", some "B-VP", some "O"⟩]

/-- Witness for C10 on the stream token, blank, blank, token: the empty
sentence between the two adjacent blanks gets no group. -/
theorem empty_sentence_spec_witness :
    countBlanks (exDoubleBlank.take 2)
      ∉ (dropnaRows (addSentenceIds 0 exDoubleBlank)).map (fun p => p.2) :=
  (empty_sentence_spec exDoubleBlank 1 60 0).1 (by decide) (by decide)

/-! ### Loader error behavior (C1) -/

/-- Counterexample to C1 as stated: a non-blank two-field line does not
make the loader fail — the parse succeeds, the malformed line becomes a
row with NaN in its two missing cells, and `dropna` silently drops it
while the rest of the pipeline goes on (silent recovery). -/
theorem malformed_line_cex :
    readCsv [["China", "NNP", "B-NP", "B-ORG"], ["broken", "line"]]
        = .ok [⟨some "China", some "NNP", some "B-NP", some "B-ORG"⟩,
               ⟨some "broken", some "line", none, none⟩]
    ∧ (dropnaRows (addSentenceIds 0
          [⟨some "China", some "NNP", some "B-NP", some "B-ORG"⟩,
           ⟨some "broken", some "line", none, none⟩])).map (fun p => p.1)
        = [⟨some "China", some "NNP", some "B-NP", some "B-ORG"⟩] :=
  ⟨rfl, by decide⟩

theorem dropna_map_fst (n : Nat) (rows : List Row) :
    (dropnaRows (addSentenceIds n rows)).map (fun p => p.1)
      = rows.filter (fun r => r.isComplete) := by
  induction rows generalizing n with
  | nil => rfl
  | cons r rs ih =>
    simp only [addSentenceIds, dropnaRows] at *
    by_cases h : r.isComplete = true
    · rw [List.filter_cons_of_pos (by simpa using h), List.map_cons,
        List.filter_cons_of_pos (by simpa using h), ih]
    · rw [List.filter_cons_of_neg (by simpa using h),
        List.filter_cons_of_neg (by simpa using h), ih]

theorem toRow_isComplete (l : List String) :
    (toRow l).isComplete = decide (4 ≤ l.length) := by
  rcases l with _ | ⟨a, _ | ⟨b, _ | ⟨c, _ | ⟨d, rest⟩⟩⟩⟩ <;>
    simp [toRow, Row.isComplete]

/-- C1 (amended). A line with more than four fields aborts the run
with a parse error.  A non-blank line with fewer than four fields does
not abort and is not reported: it parses with NaN in the missing cells
and `dropna` silently drops it, so token records are emitted exactly for
the lines with all four fields. -/
theorem readCsv_spec (lines : List (List String)) :
    ((∃ l ∈ lines, 4 < l.length) ↔ readCsv lines = .error .tooManyFields)
    ∧ ∀ rows, readCsv lines = .ok rows →
        (dropnaRows (addSentenceIds 0 rows)).map (fun p => p.1)
          = (lines.filter (fun l => l.length = 4)).map toRow := by
  constructor
  · unfold readCsv
    by_cases h : lines.all (fun l => l.length ≤ 4)
    · rw [if_pos h]
      simp only [List.all_eq_true, decide_eq_true_eq] at h
      constructor
      · rintro ⟨l, hl, hlen⟩
        exact absurd (h l hl) (by omega)
      · intro hcontra
        cases hcontra
    · rw [if_neg h]
      simp only [List.all_eq_true, decide_eq_true_eq] at h
      push_neg at h
      obtain ⟨l, hl, hlen⟩ := h
      exact ⟨fun _ => rfl, fun _ => ⟨l, hl, by omega⟩⟩
  · intro rows hok
    have hall : ∀ l ∈ lines, l.length ≤ 4 := by
      unfold readCsv at hok
      by_cases h : lines.all (fun l => l.length ≤ 4)
      · simpa using h
      · rw [if_neg h] at hok
        cases hok
    have hrows : rows = lines.map toRow := by
      unfold readCsv at hok
      rw [if_pos (by simpa using hall)] at hok
      cases hok
      rfl
    subst hrows
    rw [dropna_map_fst, List.filter_map]
    congr 1
    apply List.filter_congr
    intro l hl
    have := hall l hl
    simp only [Function.comp, toRow_isComplete]
    by_cases h4 : l.length = 4
    · simp [h4]
    · have : ¬4 ≤ l.length := by omega
      simp [h4, this]

/-- Witness for C1 (amended): on a stream with one good and one short
line, the emitted token records are exactly those of the four-field line. -/
theorem readCsv_spec_witness :
    (dropnaRows (addSentenceIds 0
        ([["China", "NNP", "B-NP", "B-ORG"], ["broken", "line"]].map toRow))).map
        (fun p => p.1)
      = ([["China", "NNP", "B-NP", "B-ORG"], ["broken", "line"]].filter
          (fun l => l.length = 4)).map toRow :=
  (readCsv_spec [["China", "NNP", "B-NP", "B-ORG"], ["broken", "line"]]).2 _ rfl

/-! ### Padding sentinels (C2) -/

/-- Counterexample to C2 as stated: the `maxlen=60` call leaves the
`value` argument of `pad_sequences` at its keras default `0.0`, so on a
one-token stream the padded positions of the input batch hold `0` — the
fitted id of the word `"Hello"` and hence a valid vocabulary id, not a
sentinel outside `0..V`. -/
theorem pad_sentinel_cex :
    xTrainSeq60 [["Hello", "NNP", "B-NP", "O"]] = .ok [List.replicate 60 0]
    ∧ padSequencesDefaultValue = 0
    ∧ encode (fitClasses ["Hello"]) "Hello" = 0
    ∧ (fitClasses ["Hello"]).length = 1 :=
  ⟨rfl, rfl, rfl, rfl⟩

/-- C2 (amended). At the `maxlen=100, value=-1` call the input
padding value is `-1`, which is negative and hence distinct from every
valid vocabulary id in `0..V`; padded positions of the one-hot label
batch are all-zero rows.  (At the `maxlen=60` call the padding value is
the keras default `0`, which coincides with a valid vocabulary id.) -/
theorem pad_sentinel_spec (V maxlen dim : Nat) (xs : List Int) (ys : List (List Int)) :
    (∀ v ∈ (padSeq maxlen (-1) xs).take (maxlen - xs.length),
        v = -1 ∧ ¬(0 ≤ v ∧ v ≤ (V : Int)))
    ∧ ∀ r ∈ (padSeqRows maxlen dim ys).take (maxlen - ys.length),
        r = List.replicate dim 0 := by
  constructor
  · intro v hv
    by_cases h : maxlen ≤ xs.length
    · rw [Nat.sub_eq_zero_of_le h] at hv
      simp at hv
    · rw [padSeq, if_neg h, List.take_append_of_le_length (by simp)] at hv
      simp at hv
      refine ⟨hv.2, fun hc => ?_⟩
      rw [hv.2] at hc
      exact absurd hc.1 (by decide)
  · intro r hr
    by_cases h : maxlen ≤ ys.length
    · rw [Nat.sub_eq_zero_of_le h] at hr
      simp at hr
    · rw [padSeqRows, if_neg h, List.take_append_of_le_length (by simp)] at hr
      simp at hr
      exact hr.2

/-- Witness for C2 (amended) at concrete short inputs. -/
theorem pad_sentinel_spec_witness :
    ((-1 : Int) = -1 ∧ ¬((0 : Int) ≤ -1 ∧ (-1 : Int) ≤ ((5 : Nat) : Int)))
    ∧ ([0, 0] : List Int) = List.replicate 2 0 :=
  ⟨(pad_sentinel_spec 5 3 2 [7] [[1, 0]]).1 (-1) (by decide),
   (pad_sentinel_spec 5 3 2 [7] [[1, 0]]).2 [0, 0] (by decide)⟩

/-! ### Embedding-matrix initialization (C9) -/

/-- One row of the embedding matrix: `embedding_matrix[i] = GloVe.loc[word]`
inside `try: ... except: pass`.  A missing word (`.loc` raises a
`KeyError`) or a vector that does not broadcast into the 50-wide zero row
leaves the row at its `np.zeros` initialization. -/
def embeddingRow (glove : String → Option (List Int)) : Option String → List Int
  | none => List.replicate 50 0
  | some w =>
    match glove w with
    | none => List.replicate 50 0
    | some v => if v.length = 50 then v else List.replicate 50 0

/-- The matrix `embedding_matrix = np.zeros((len(word_encoder.classes_) + 1, 50))`
filled row by row from the pretrained table; index `len(classes_)` is
never written. -/
def embeddingMatrix (cls : List String) (glove : String → Option (List Int)) :
    List (List Int) :=
  (List.range (cls.length + 1)).map (fun i => embeddingRow glove cls[i]?)

theorem embeddingRow_length (glove : String → Option (List Int)) (o : Option String) :
    (embeddingRow glove o).length = 50 := by
  rcases o with _ | w
  · simp [embeddingRow]
  · rw [embeddingRow]
    rcases h : glove w with _ | v
    · simp
    · by_cases h5 : v.length = 50
      · simp [h5]
      · simp [h5]

/-- C9. The embedding initialization matrix has `V + 1` rows of width
50; the extra row at index `V` (the out-of-vocabulary id, which
corresponds to no word) is all zero; every row whose word is absent from
the pretrained table stays all zero, the failed lookup being silently
swallowed rather than aborting (the builder is total). -/
theorem embeddingMatrix_spec (cls : List String) (glove : String → Option (List Int)) :
    (embeddingMatrix cls glove).length = cls.length + 1
    ∧ (∀ row ∈ embeddingMatrix cls glove, row.length = 50)
    ∧ (embeddingMatrix cls glove)[cls.length]? = some (List.replicate 50 (0 : Int))
    ∧ ∀ (i : Nat) (w : String), cls[i]? = some w → glove w = none →
        (embeddingMatrix cls glove)[i]? = some (List.replicate 50 (0 : Int)) := by
  refine ⟨by simp [embeddingMatrix], ?_, ?_, ?_⟩
  · intro row hrow
    obtain ⟨i, -, hrow⟩ := List.mem_map.mp hrow
    rw [← hrow]
    exact embeddingRow_length glove _
  · rw [embeddingMatrix, List.getElem?_map _ _ cls.length,
      List.getElem?_range (Nat.lt_succ_self _)]
    have : cls[cls.length]? = none := List.getElem?_eq_none (Nat.le_refl _)
    simp [this, embeddingRow]
  · intro i w hw hg
    have hi : i < cls.length := (List.getElem?_eq_some.mp hw).1
    rw [embeddingMatrix, List.getElem?_map _ _ i,
      List.getElem?_range (Nat.lt_succ_of_lt hi)]
    simp [hw, embeddingRow, hg]

/-- Witness for C9: a one-word vocabulary against an empty pretrained
table leaves both the word's row and the out-of-vocabulary row zero. -/
theorem embeddingMatrix_spec_witness :
    (embeddingMatrix ["Hello"] (fun _ => none))[1]? = some (List.replicate 50 (0 : Int))
    ∧ (embeddingMatrix ["Hello"] (fun _ => none))[0]? = some (List.replicate 50 (0 : Int)) :=
  ⟨(embeddingMatrix_spec ["Hello"] (fun _ => none)).2.2.1,
   (embeddingMatrix_spec ["Hello"] (fun _ => none)).2.2.2 0 "Hello" rfl rfl⟩

end CoNLL
